import Mathlib

/-!
Verification development for the `Scripts` repository (file-maintenance
utilities).  The Python sources are shallow-embedded over `List Char`:

* `src/rename_media.py`       — media renamer (`YYYY-MM-description.ext`)
* `src/scripts/organize_files.py`   — extension-bucket organizer
* `src/scripts/apply_structure.py`  — category organizer with stem sanitizing
* `src/scripts/photo_migration.py`  — year/extension photo migrator

Filenames are modelled as `List Char` (`Name`); a directory's contents (the
`exists()` checks of `pathlib`) are a `Finset Name`; the Python `set` of
reserved names is likewise a `Finset Name`.  Unbounded `while` loops are
modelled with an explicit fuel argument; a fuel bound derived from the
(finite) directory/reserved sets is proved sufficient below, which is the
termination argument of the source.
-/

/-- Filenames and path components are ASCII character lists. -/
abbrev Name := List Char

/-- Character class of the regex fragment `[A-Za-z0-9]` (and of
`[^A-Za-z0-9]` by negation), used by `_NON_ALNUM_PATTERN` in
`rename_media.py`. -/
def isAlnumAscii (c : Char) : Bool :=
  (('A' ≤ c && c ≤ 'Z') || ('a' ≤ c && c ≤ 'z') || ('0' ≤ c && c ≤ '9'))

/-- ASCII lowercase letter. -/
def isLowerAlpha (c : Char) : Bool := 'a' ≤ c && c ≤ 'z'

/-- ASCII digit, the character class of `\d` in `_DIGIT_PATTERN`
(inputs are ASCII filenames). -/
def isDigitChar (c : Char) : Bool := '0' ≤ c && c ≤ '9'

/-- Python `str.lstrip(chars)` restricted to a predicate: drop the longest
prefix of characters satisfying `p`. -/
def lstripP (p : Char → Bool) (s : Name) : Name := s.dropWhile p

/-- Python `str.rstrip(chars)`: drop the longest suffix satisfying `p`. -/
def rstripP (p : Char → Bool) (s : Name) : Name := (s.reverse.dropWhile p).reverse

/-- Python `str.strip(chars)`: strip both ends. -/
def stripP (p : Char → Bool) (s : Name) : Name := rstripP p (lstripP p s)

/-- Python whitespace characters relevant to `str.strip()` on ASCII input. -/
def isPyWs (c : Char) : Bool :=
  c = ' ' || c = '\t' || c = '\n' || c = '\x0b' || c = '\x0c' || c = '\r'

/-- `re.sub` of a one-character-class-run pattern: every maximal run of
characters *not* satisfying `keep` is replaced by the single character
`rep`.  The boolean state records whether the previous character was part
of such a run (so the run contributes `rep` only once). -/
def subRuns (keep : Char → Bool) (rep : Char) : Bool → List Char → List Char
  | _, [] => []
  | inRun, c :: cs =>
    if keep c then c :: subRuns keep rep false cs
    else if inRun then subRuns keep rep true cs
    else rep :: subRuns keep rep true cs

/-- `_DIGIT_PATTERN.sub("", name)` from `rename_media.py`: remove all
digits (replacing a digit run by the empty string is just deletion). -/
def stripDigits (s : Name) : Name := s.filter (fun c => !isDigitChar c)

/-- Decimal digit character (`0 ≤ n ≤ 9`). -/
def digitChar : Nat → Char
  | 0 => '0' | 1 => '1' | 2 => '2' | 3 => '3' | 4 => '4'
  | 5 => '5' | 6 => '6' | 7 => '7' | 8 => '8' | _ => '9'

/-- Decimal rendering with structural fuel (`n ≤ fuel` in every use, so
the fuel-exhausted base case is never taken for the digits beyond the
first). -/
def natDigitsAux : Nat → Nat → List Char
  | 0, n => [digitChar n]
  | fuel + 1, n =>
    if n < 10 then [digitChar n]
    else natDigitsAux fuel (n / 10) ++ [digitChar (n % 10)]

/-- Decimal rendering of a natural number, as produced by Python's
`f"{counter}"` / `str(n)`. -/
def natDigits (n : Nat) : List Char := natDigitsAux n n

/-- Numeric value of a digit character. -/
def digitVal (c : Char) : Nat := c.toNat - 48

/-- Evaluate a big-endian digit string. -/
def evalDigits (l : List Char) : Nat := l.foldl (fun a c => 10 * a + digitVal c) 0

/-- Zero-padded decimal of width `w` (as `strftime` does for `%Y`/`%m`). -/
def padNum (w : Nat) (n : Nat) : List Char :=
  List.replicate (w - (natDigits n).length) '0' ++ natDigits n

/-- `timestamp.strftime("%Y-%m")` from `_build_target_name`, with the
modification time modelled by its year and month fields. -/
def strftimeYM (y m : Nat) : Name := padNum 4 y ++ '-' :: padNum 2 m

/-- Index of the last `'.'` in a name, as CPython's `name.rfind('.')`:
the characters strictly after that index contain no dot.  Returns the
reversed run of dot-free characters at the end of the name; the name has
no dot at all iff this run is the whole name. -/
def tailAfterDot (s : Name) : Name := (s.reverse.takeWhile (fun c => c ≠ '.')).reverse

/-- `pathlib.PurePath.stem`: `name[:i]` when `i = name.rfind('.')`
satisfies `0 < i < len(name) - 1`, otherwise the whole name. -/
def pyStem (s : Name) : Name :=
  let t := tailAfterDot s
  if t.length = s.length then s
  else if 0 < s.length - t.length - 1 ∧ t ≠ [] then s.take (s.length - t.length - 1)
  else s

/-- `pathlib.PurePath.suffix`: `name[i:]` under the same condition,
otherwise the empty string. -/
def pySuffix (s : Name) : Name :=
  let t := tailAfterDot s
  if t.length = s.length then []
  else if 0 < s.length - t.length - 1 ∧ t ≠ [] then '.' :: t
  else []

/-- `_normalize_description` from `rename_media.py`: strip digits,
collapse each run of non-alphanumeric characters to a single hyphen,
strip hyphens at both ends, lowercase, and fall back to the literal
`"file"` when the result is empty. -/
def normalizeDescription (name : Name) : Name :=
  let without_digits := stripDigits name
  let cleaned := stripP (fun c => c = '-') (subRuns isAlnumAscii '-' false without_digits)
  let lowered := cleaned.map Char.toLower
  if lowered = [] then "file".data else lowered

/-- `_build_target_name` from `rename_media.py`:
`f"{prefix}-{description}{path.suffix}"` with `prefix` the
modification-time `YYYY-MM` and `description` the normalized stem. -/
def buildTargetName (name : Name) (y m : Nat) : Name :=
  strftimeYM y m ++ '-' :: normalizeDescription (pyStem name) ++ pySuffix name

/-- The shared `while` shape of the three collision loops, with explicit
fuel.  `blocked` is the loop guard, `next k` the candidate built from the
current counter value `k` (the counter is incremented after use, as in the
sources). -/
def collisionLoop (blocked : Name → Bool) (next : Nat → Name) :
    Nat → Nat → Name → Name
  | 0, _, cur => cur
  | fuel + 1, k, cur =>
    if blocked cur then collisionLoop blocked next fuel (k + 1) (next k) else cur

/-- Candidate number `j` of a collision loop: the initial candidate at
`j = 0`, `next j` afterwards. -/
def candL (base : Name) (next : Nat → Name) : Nat → Name
  | 0 => base
  | j + 1 => next (j + 1)

/-- Guard of `_resolve_target`'s loop:
`(candidate.exists() and candidate.resolve() != path.resolve()) or
candidate.name in reserved`, with `existing` the directory contents and
path identity within the single directory given by name equality. -/
def blockedRM (f : Name) (existing reserved : Finset Name) (c : Name) : Bool :=
  (decide (c ∈ existing) && decide (c ≠ f)) || decide (c ∈ reserved)

/-- Suffixed candidate of `_resolve_target`:
`f"{Path(base_name).stem}-{counter}{path.suffix}"`. -/
def nextRM (base f : Name) (k : Nat) : Name :=
  pyStem base ++ '-' :: natDigits k ++ pySuffix f

/-- Fuel sufficient for any of the collision loops: one more candidate
than there are names that could possibly block, plus the initial check. -/
def fuelBound (existing reserved : Finset Name) : Nat :=
  existing.card + reserved.card + 2

/-- `_resolve_target` from `rename_media.py` (the `while` loop carries
fuel; `resolveLoop_finds_free` below shows the fuel is never exhausted). -/
def resolveTarget (f : Name) (y m : Nat) (existing reserved : Finset Name) : Name :=
  let base := buildTargetName f y m
  collisionLoop (blockedRM f existing reserved) (nextRM base f)
    (fuelBound existing reserved) 1 base

/-! ### Decimal rendering: correctness, injectivity, character class -/

theorem digitVal_digitChar : ∀ k, k < 10 → digitVal (digitChar k) = k := by decide

theorem isDigitChar_digitChar (k : Nat) : isDigitChar (digitChar k) = true := by
  unfold digitChar
  split <;> decide

theorem evalDigits_append (l : List Char) (c : Char) :
    evalDigits (l ++ [c]) = 10 * evalDigits l + digitVal c := by
  simp [evalDigits, List.foldl_append]

theorem evalDigits_singleton (c : Char) : evalDigits [c] = digitVal c := by
  simp [evalDigits]

theorem evalDigits_natDigitsAux : ∀ fuel n, n ≤ fuel → evalDigits (natDigitsAux fuel n) = n := by
  intro fuel
  induction fuel with
  | zero =>
    intro n hn
    have : n = 0 := Nat.le_zero.mp hn
    subst this
    decide
  | succ f ih =>
    intro n hn
    unfold natDigitsAux
    split
    · rw [evalDigits_singleton, digitVal_digitChar _ (by omega)]
    · rw [evalDigits_append, ih (n / 10) (by omega), digitVal_digitChar _ (by omega)]
      omega

theorem evalDigits_natDigits (n : Nat) : evalDigits (natDigits n) = n :=
  evalDigits_natDigitsAux n n (Nat.le_refl n)

theorem natDigits_injective {a b : Nat} (h : natDigits a = natDigits b) : a = b := by
  have ha := evalDigits_natDigits a
  rw [h, evalDigits_natDigits] at ha
  omega

theorem mem_natDigitsAux_isDigit : ∀ fuel n c, c ∈ natDigitsAux fuel n → isDigitChar c = true := by
  intro fuel
  induction fuel with
  | zero =>
    intro n c hc
    unfold natDigitsAux at hc
    rcases List.mem_singleton.mp hc with rfl
    exact isDigitChar_digitChar n
  | succ f ih =>
    intro n c hc
    unfold natDigitsAux at hc
    split at hc
    · rcases List.mem_singleton.mp hc with rfl
      exact isDigitChar_digitChar n
    · rcases List.mem_append.mp hc with h | h
      · exact ih _ _ h
      · rcases List.mem_singleton.mp h with rfl
        exact isDigitChar_digitChar _

theorem mem_natDigits_isDigit {n : Nat} {c : Char} (hc : c ∈ natDigits n) :
    isDigitChar c = true :=
  mem_natDigitsAux_isDigit n n c hc

theorem natDigitsAux_ne_nil : ∀ fuel n, natDigitsAux fuel n ≠ [] := by
  intro fuel n
  cases fuel with
  | zero => simp [natDigitsAux]
  | succ f =>
    rw [natDigitsAux]
    split <;> simp

theorem natDigits_ne_nil (n : Nat) : natDigits n ≠ [] := natDigitsAux_ne_nil n n

/-- A digit character is alphanumeric. -/
theorem isDigit_isAlnum {c : Char} (h : isDigitChar c = true) : isAlnumAscii c = true := by
  simp only [isDigitChar, Bool.and_eq_true] at h
  simp only [isAlnumAscii, Bool.or_eq_true, Bool.and_eq_true]
  right
  exact h

/-- A lowercase letter is alphanumeric. -/
theorem isLower_isAlnum {c : Char} (h : isLowerAlpha c = true) : isAlnumAscii c = true := by
  simp only [isLowerAlpha, Bool.and_eq_true] at h
  simp only [isAlnumAscii, Bool.or_eq_true, Bool.and_eq_true]
  left; right
  exact h

/-- A digit character is not a dot (digits lie at 48–57, `'.'` is 46). -/
theorem isDigit_ne_dot {c : Char} (h : isDigitChar c = true) : c ≠ '.' := by
  rintro rfl
  exact absurd h (by decide)

theorem isDigit_ne_hyphen {c : Char} (h : isDigitChar c = true) : c ≠ '-' := by
  rintro rfl
  exact absurd h (by decide)

/-! ### Strip / dropWhile helper lemmas -/

theorem rstripP_eq_rdropWhile (p : Char → Bool) (s : Name) :
    rstripP p s = s.rdropWhile p := rfl

theorem dropWhile_head_false {p : Char → Bool} :
    ∀ {s r : Name} {c : Char}, s.dropWhile p = c :: r → p c = false := by
  intro s
  induction s with
  | nil => intro r c h; simp at h
  | cons a t ih =>
    intro r c h
    by_cases hp : p a
    · rw [List.dropWhile_cons_of_pos hp] at h
      exact ih h
    · rw [List.dropWhile_cons_of_neg hp] at h
      cases h
      simpa using hp

theorem lstripP_suffix (p : Char → Bool) (s : Name) : lstripP p s <:+ s :=
  List.dropWhile_suffix p

theorem rstripP_isPrefix (p : Char → Bool) (s : Name) : rstripP p s <+: s := by
  rw [rstripP_eq_rdropWhile]
  exact List.rdropWhile_prefix p s

theorem stripP_subset {p : Char → Bool} {s : Name} : ∀ c ∈ stripP p s, c ∈ s := by
  intro c hc
  exact (lstripP_suffix p s).mem ((rstripP_isPrefix p (lstripP p s)).mem hc)

/-- A nonempty strip result starts with a character that fails `p`. -/
theorem stripP_head_false {p : Char → Bool} {s r : Name} {c : Char}
    (h : stripP p s = c :: r) : p c = false := by
  have h' : rstripP p (lstripP p s) = c :: r := h
  obtain ⟨t, ht⟩ := rstripP_isPrefix p (lstripP p s)
  rw [h'] at ht
  have : s.dropWhile p = c :: (r ++ t) := by simpa using ht.symm
  exact dropWhile_head_false this

/-- A nonempty strip result ends with a character that fails `p`. -/
theorem stripP_getLast_false {p : Char → Bool} {s : Name}
    (h : stripP p s ≠ []) : p ((stripP p s).getLast h) = false := by
  have := List.rdropWhile_last_not p (lstripP p s) (by
    rw [← rstripP_eq_rdropWhile]; exact h)
  simpa using this

/-- `getLast?` form of the previous lemma. -/
theorem stripP_getLast_ne {p : Char → Bool} {s : Name} {c : Char}
    (h : (stripP p s).getLast? = some c) : p c = false := by
  have hne : stripP p s ≠ [] := by
    intro h0
    rw [h0] at h
    simp at h
  have hp := stripP_getLast_false hne
  rw [List.getLast?_eq_getLast _ hne, Option.some_inj] at h
  rwa [h] at hp

theorem rstripP_eq_nil_iff {p : Char → Bool} {s : Name} :
    rstripP p s = [] ↔ ∀ c ∈ s, p c := by
  rw [rstripP_eq_rdropWhile]
  exact List.rdropWhile_eq_nil_iff

theorem rstripP_subset {p : Char → Bool} {s : Name} : ∀ c ∈ rstripP p s, c ∈ s :=
  fun _ hc => (rstripP_isPrefix p s).mem hc

theorem rstripP_length_le (p : Char → Bool) (s : Name) :
    (rstripP p s).length ≤ s.length :=
  (rstripP_isPrefix p s).length_le

/-- The head of a nonempty prefix agrees with the head of the list. -/
theorem IsPrefix.head_eq {l₁ l₂ : Name} {c : Char} {r : Name}
    (h : l₁ <+: l₂) (hh : l₁ = c :: r) : ∃ r', l₂ = c :: r' := by
  obtain ⟨t, ht⟩ := h
  subst hh
  exact ⟨r ++ t, by simpa using ht.symm⟩

/-! ### Character class lemmas -/

theorem char_le_toNat {a b : Char} (h : a ≤ b) : a.toNat ≤ b.toNat :=
  Char.le_def.mp h

theorem char_toNat_ofNat {n : Nat} (h : n < 55296) : (Char.ofNat n).toNat = n := by
  unfold Char.ofNat
  rw [dif_pos (Or.inl h)]
  rfl

theorem isLowerAlpha_toNat {c : Char} (h : isLowerAlpha c = true) :
    97 ≤ c.toNat ∧ c.toNat ≤ 122 := by
  simp only [isLowerAlpha, Bool.and_eq_true, decide_eq_true_eq] at h
  exact ⟨char_le_toNat h.1, char_le_toNat h.2⟩

theorem isDigitChar_toNat {c : Char} (h : isDigitChar c = true) :
    48 ≤ c.toNat ∧ c.toNat ≤ 57 := by
  simp only [isDigitChar, Bool.and_eq_true, decide_eq_true_eq] at h
  exact ⟨char_le_toNat h.1, char_le_toNat h.2⟩

/-- Lowercase letters are fixed by `Char.toLower`. -/
theorem toLower_of_lower {c : Char} (h : isLowerAlpha c = true) :
    c.toLower = c := by
  have := isLowerAlpha_toNat h
  unfold Char.toLower
  rw [if_neg]
  omega

/-- `Char.toLower` fixes `'-'`. -/
theorem toLower_hyphen : Char.toLower '-' = '-' := by decide

theorem char_le_of_toNat {a b : Char} (h : a.toNat ≤ b.toNat) : a ≤ b :=
  Char.le_def.mpr h

theorem toLower_unfold (c : Char) :
    c.toLower = if c.toNat ≥ 65 ∧ c.toNat ≤ 90 then Char.ofNat (c.toNat + 32) else c :=
  rfl

/-- Only `'-'` is mapped to `'-'` by `Char.toLower`. -/
theorem eq_hyphen_of_toLower {c : Char} (h : c.toLower = '-') : c = '-' := by
  rw [toLower_unfold] at h
  split at h
  · exfalso
    have hv := congrArg Char.toNat h
    rw [char_toNat_ofNat (by omega)] at hv
    simp only [show ('-').toNat = 45 from rfl] at hv
    omega
  · exact h

/-- Alphanumeric non-digits (letters) become lowercase letters. -/
theorem isLower_toLower_of_alpha {c : Char} (ha : isAlnumAscii c = true)
    (hd : isDigitChar c = false) : isLowerAlpha c.toLower = true := by
  simp only [isAlnumAscii, Bool.or_eq_true, Bool.and_eq_true, decide_eq_true_eq] at ha
  rcases ha with (hu | hl) | hn
  · have h1 := char_le_toNat hu.1
    have h2 := char_le_toNat hu.2
    rw [show ('A').toNat = 65 from rfl] at h1
    rw [show ('Z').toNat = 90 from rfl] at h2
    rw [toLower_unfold, if_pos (by omega)]
    have hv : (Char.ofNat (c.toNat + 32)).toNat = c.toNat + 32 :=
      char_toNat_ofNat (by omega)
    simp only [isLowerAlpha, Bool.and_eq_true, decide_eq_true_eq]
    constructor
    · apply char_le_of_toNat
      rw [hv, show ('a').toNat = 97 from rfl]
      omega
    · apply char_le_of_toNat
      rw [hv, show ('z').toNat = 122 from rfl]
      omega
  · rw [toLower_of_lower (by simp [isLowerAlpha, hl.1, hl.2])]
    simp [isLowerAlpha, hl.1, hl.2]
  · exfalso
    have : isDigitChar c = true := by simp [isDigitChar, hn.1, hn.2]
    rw [hd] at this
    cases this

/-- Lowercase letters are not digits. -/
theorem isLower_not_digit {c : Char} (h : isLowerAlpha c = true) :
    isDigitChar c = false := by
  have := isLowerAlpha_toNat h
  by_contra hc
  have hd : isDigitChar c = true := by
    cases hd : isDigitChar c
    · exact absurd hd hc
    · rfl
  have := isDigitChar_toNat hd
  omega

/-- Lowercase letters are not the dot character. -/
theorem isLower_ne_dot {c : Char} (h : isLowerAlpha c = true) : c ≠ '.' := by
  rintro rfl
  exact absurd h (by decide)

theorem isLower_ne_hyphen {c : Char} (h : isLowerAlpha c = true) : c ≠ '-' := by
  rintro rfl
  exact absurd h (by decide)

/-! ### subRuns lemmas -/

/-- Every output character of `subRuns` is `rep` or a kept input character. -/
theorem mem_subRuns {keep : Char → Bool} {rep : Char} :
    ∀ {b : Bool} {l : List Char} {c : Char}, c ∈ subRuns keep rep b l →
      c = rep ∨ (c ∈ l ∧ keep c = true) := by
  intro b l
  induction l generalizing b with
  | nil => intro c hc; simp [subRuns] at hc
  | cons a t ih =>
    intro c hc
    rw [subRuns] at hc
    split at hc
    · rcases List.mem_cons.mp hc with rfl | h
      · right
        exact ⟨List.mem_cons_self _ _, by assumption⟩
      · rcases ih h with h' | h'
        · exact Or.inl h'
        · exact Or.inr ⟨List.mem_cons_of_mem _ h'.1, h'.2⟩
    · split at hc
      · rcases ih hc with h' | h'
        · exact Or.inl h'
        · exact Or.inr ⟨List.mem_cons_of_mem _ h'.1, h'.2⟩
      · rcases List.mem_cons.mp hc with rfl | h
        · exact Or.inl rfl
        · rcases ih h with h' | h'
          · exact Or.inl h'
          · exact Or.inr ⟨List.mem_cons_of_mem _ h'.1, h'.2⟩

/-- `subRuns` never emits two adjacent `rep` characters (when `rep` is
not a kept character), and in run-state it never begins with `rep`. -/
theorem subRuns_chain {keep : Char → Bool} {rep : Char} (hkr : keep rep = false) :
    ∀ (l : List Char) (b : Bool),
      (subRuns keep rep b l).Chain' (fun x y => ¬(x = rep ∧ y = rep)) ∧
      (b = true → (subRuns keep rep b l).head? ≠ some rep) := by
  intro l
  induction l with
  | nil => intro b; constructor <;> simp [subRuns]
  | cons a t ih =>
    intro b
    rw [subRuns]
    split
    · -- kept character `a`
      have hka : keep a = true := by assumption
      have hne : a ≠ rep := by rintro rfl; rw [hkr] at hka; cases hka
      refine ⟨List.chain'_cons'.mpr ⟨?_, (ih false).1⟩, ?_⟩
      · intro y _hy
        rintro ⟨rfl, _⟩
        exact hne rfl
      · intro _ h
        rw [List.head?_cons, Option.some_inj] at h
        exact hne h
    · split
      · exact ⟨(ih true).1, fun _ => (ih true).2 rfl⟩
      · refine ⟨List.chain'_cons'.mpr ⟨?_, (ih true).1⟩, ?_⟩
        · intro y hy
          rintro ⟨_, rfl⟩
          exact (ih true).2 rfl hy
        · intro hb
          cases hb
          simp_all

/-- On a list whose characters are kept-or-`rep`, with no two adjacent
`rep`s, `subRuns` is the identity (in run-state provided the list does
not begin with `rep`). -/
theorem subRuns_id {keep : Char → Bool} {rep : Char} (hkr : keep rep = false) :
    ∀ (d : List Char),
      (∀ c ∈ d, keep c = true ∨ c = rep) →
      d.Chain' (fun x y => ¬(x = rep ∧ y = rep)) →
      subRuns keep rep false d = d ∧
        (d.head? ≠ some rep → subRuns keep rep true d = d) := by
  intro d
  induction d with
  | nil => intro _ _; constructor <;> simp [subRuns]
  | cons a t ih =>
    intro hchars hchain
    have hct : ∀ c ∈ t, keep c = true ∨ c = rep :=
      fun c hc => hchars c (List.mem_cons_of_mem _ hc)
    have hcht : t.Chain' (fun x y => ¬(x = rep ∧ y = rep)) :=
      (List.chain'_cons'.mp hchain).2
    have iht := ih hct hcht
    constructor
    · rw [subRuns]
      rcases hchars a (List.mem_cons_self _ _) with hka | heq
      · rw [if_pos hka, iht.1]
      · have hhead : t.head? ≠ some rep := by
          intro hh
          exact (List.chain'_cons'.mp hchain).1 rep (Option.mem_def.mpr hh) ⟨heq, rfl⟩
        rw [heq, if_neg (by simp [hkr]), if_neg (by simp), iht.2 hhead]
    · intro hh
      have hne : a ≠ rep := by
        intro h
        exact hh (by rw [h, List.head?_cons])
      have hka : keep a = true := by
        rcases hchars a (List.mem_cons_self _ _) with h | h
        · exact h
        · exact absurd h hne
      rw [subRuns, if_pos hka, iht.1]

/-! ### Canonical form of normalized descriptions -/

/-- Canonical shape of a `normalizeDescription` result: nonempty,
lowercase letters and single hyphens, no hyphen at either end, no two
adjacent hyphens. -/
def Canon (d : Name) : Prop :=
  d ≠ [] ∧
  (∀ c ∈ d, isLowerAlpha c = true ∨ c = '-') ∧
  d.head? ≠ some '-' ∧
  d.getLast? ≠ some '-' ∧
  d.Chain' (fun x y => ¬(x = '-' ∧ y = '-'))

theorem canon_file : Canon ("file".data) := by
  refine ⟨by decide, by decide, by decide, by decide, ?_⟩
  rw [show "file".data = ['f', 'i', 'l', 'e'] from rfl]
  exact List.Chain'.cons (by decide)
    (List.Chain'.cons (by decide) (List.Chain'.cons (by decide) (List.chain'_singleton _)))

theorem canon_normalizeDescription (s : Name) : Canon (normalizeDescription s) := by
  rw [normalizeDescription]
  set w := stripDigits s with hw
  set u := subRuns isAlnumAscii '-' false w with hu
  set cl := stripP (fun c => c = '-') u with hcl
  set lo := cl.map Char.toLower with hlo
  by_cases hemp : lo = []
  · rw [if_pos hemp]
    exact canon_file
  · rw [if_neg hemp]
    have hchars : ∀ c ∈ lo, isLowerAlpha c = true ∨ c = '-' := by
      intro c hc
      rw [hlo] at hc
      rcases List.mem_map.mp hc with ⟨c₀, hc₀, rfl⟩
      rcases mem_subRuns (stripP_subset c₀ hc₀) with rfl | ⟨hmem, hka⟩
      · right
        exact toLower_hyphen
      · left
        have hnd : isDigitChar c₀ = false := by
          have := (List.mem_filter.mp hmem).2
          simpa using this
        exact isLower_toLower_of_alpha hka hnd
    refine ⟨hemp, hchars, ?_, ?_, ?_⟩
    · intro hh
      rw [hlo, List.head?_map] at hh
      rcases Option.map_eq_some'.mp hh with ⟨c₀, hc₀, hlow⟩
      have hc0 : c₀ = '-' := eq_hyphen_of_toLower hlow
      rcases List.head?_eq_some_iff.mp hc₀ with ⟨r, hr⟩
      have := stripP_head_false (hcl ▸ hr)
      rw [hc0] at this
      simp at this
    · intro hh
      rw [hlo, List.getLast?_map] at hh
      rcases Option.map_eq_some'.mp hh with ⟨c₀, hc₀, hlow⟩
      have hc0 : c₀ = '-' := eq_hyphen_of_toLower hlow
      have hlast := stripP_getLast_ne (hcl ▸ hc₀)
      rw [hc0] at hlast
      simp at hlast
    · have hcu : u.Chain' (fun x y => ¬(x = '-' ∧ y = '-')) :=
        (subRuns_chain (by decide) w false).1
      have hccl : cl.Chain' (fun x y => ¬(x = '-' ∧ y = '-')) := by
        have h1 := hcu.suffix (lstripP_suffix (fun c => c = '-') u)
        exact h1.prefix (rstripP_isPrefix (fun c => c = '-') (lstripP (fun c => c = '-') u))
      rw [hlo]
      refine (List.chain'_map Char.toLower).mpr (hccl.imp ?_)
      intro a b hab
      rintro ⟨ha, hb⟩
      exact hab ⟨eq_hyphen_of_toLower ha, eq_hyphen_of_toLower hb⟩

theorem stripDigits_append (a b : Name) :
    stripDigits (a ++ b) = stripDigits a ++ stripDigits b := by
  simp [stripDigits]

theorem stripDigits_all_digits {l : Name} (h : ∀ c ∈ l, isDigitChar c = true) :
    stripDigits l = [] := by
  simp only [stripDigits, List.filter_eq_nil_iff]
  intro c hc
  simp [h c hc]

theorem stripDigits_no_digits {l : Name} (h : ∀ c ∈ l, isDigitChar c = false) :
    stripDigits l = l := by
  rw [stripDigits, List.filter_eq_self]
  intro c hc
  simp [h c hc]

theorem padNum_digits {w n : Nat} : ∀ c ∈ padNum w n, isDigitChar c = true := by
  intro c hc
  rcases List.mem_append.mp hc with h | h
  · rw [List.eq_of_mem_replicate h]
    decide
  · exact mem_natDigits_isDigit h

theorem stripDigits_strftimeYM (y m : Nat) :
    stripDigits (strftimeYM y m) = ['-'] := by
  rw [strftimeYM, stripDigits_append, stripDigits_all_digits padNum_digits,
    show ('-' :: padNum 2 m : Name) = ['-'] ++ padNum 2 m from rfl,
    stripDigits_append, stripDigits_all_digits padNum_digits]
  rfl

theorem canon_not_digit {d : Name} (h : Canon d) :
    ∀ c ∈ d, isDigitChar c = false := by
  intro c hc
  rcases h.2.1 c hc with hl | rfl
  · exact isLower_not_digit hl
  · decide

theorem canon_no_dot {d : Name} (h : Canon d) : ∀ c ∈ d, c ≠ '.' := by
  intro c hc
  rcases h.2.1 c hc with hl | rfl
  · exact isLower_ne_dot hl
  · decide

theorem canon_toLower_fixed {d : Name} (h : Canon d) :
    d.map Char.toLower = d := by
  have heq : d.map Char.toLower = d.map id :=
    List.map_congr_left (fun c hc => by
      rcases h.2.1 c hc with hl | rfl
      · exact toLower_of_lower hl
      · exact toLower_hyphen)
  simpa using heq

theorem canon_head_ne {d : Name} (h : Canon d) :
    ∀ {c r}, d = c :: r → c ≠ '-' := by
  intro c r hd heq
  subst heq
  exact h.2.2.1 (by rw [hd, List.head?_cons])

/-- `subRuns` leaves a canonical description unchanged. -/
theorem subRuns_canon {d : Name} (h : Canon d) :
    subRuns isAlnumAscii '-' false d = d ∧ subRuns isAlnumAscii '-' true d = d := by
  have hchars : ∀ c ∈ d, isAlnumAscii c = true ∨ c = '-' := by
    intro c hc
    rcases h.2.1 c hc with hl | rfl
    · exact Or.inl (isLower_isAlnum hl)
    · exact Or.inr rfl
  have hid := subRuns_id (by decide) d hchars h.2.2.2.2
  exact ⟨hid.1, hid.2 h.2.2.1⟩

/-- `subRuns` leaves a canonical description with a trailing hyphen
unchanged (in either state, since it does not begin with a hyphen). -/
theorem subRuns_canon_concat {d : Name} (h : Canon d) :
    subRuns isAlnumAscii '-' true (d ++ ['-']) = d ++ ['-'] := by
  have hchars : ∀ c ∈ d ++ ['-'], isAlnumAscii c = true ∨ c = '-' := by
    intro c hc
    rcases List.mem_append.mp hc with hc | hc
    · rcases h.2.1 c hc with hl | rfl
      · exact Or.inl (isLower_isAlnum hl)
      · exact Or.inr rfl
    · rcases List.mem_singleton.mp hc with rfl
      exact Or.inr rfl
  have hchain : (d ++ ['-']).Chain' (fun x y => ¬(x = '-' ∧ y = '-')) := by
    rw [List.chain'_append]
    refine ⟨h.2.2.2.2, List.chain'_singleton _, ?_⟩
    intro x hx y hy
    rintro ⟨rfl, _⟩
    exact h.2.2.2.1 hx
  have hhead : (d ++ ['-']).head? ≠ some '-' := by
    rcases List.exists_cons_of_ne_nil h.1 with ⟨c, r, rfl⟩
    rw [List.cons_append, List.head?_cons]
    intro hc
    rw [Option.some_inj] at hc
    exact canon_head_ne h rfl hc
  exact (subRuns_id (by decide) _ hchars hchain).2 hhead

theorem dropWhile_eq_self_of_head {p : Char → Bool} {d : Name}
    (h : ∀ {c r}, d = c :: r → p c = false) : d.dropWhile p = d := by
  cases d with
  | nil => rfl
  | cons c r => rw [List.dropWhile_cons_of_neg (by rw [h rfl]; simp)]

theorem rstripP_eq_self_canon {d : Name} (h : Canon d) :
    rstripP (fun c => c = '-') d = d := by
  rw [rstripP_eq_rdropWhile, List.rdropWhile_eq_self_iff]
  intro hl hp
  rw [decide_eq_true_eq] at hp
  exact h.2.2.2.1 (by rw [List.getLast?_eq_getLast _ hl, hp])

/-- Stripping hyphens from `'-' :: d` recovers a canonical `d`. -/
theorem stripP_hyphen_cons {d : Name} (h : Canon d) :
    stripP (fun c => c = '-') ('-' :: d) = d := by
  rw [stripP, lstripP, List.dropWhile_cons_of_pos (by simp)]
  rw [dropWhile_eq_self_of_head (fun hd => by
    rw [decide_eq_false_iff_not]
    exact canon_head_ne h hd)]
  exact rstripP_eq_self_canon h

/-- Stripping hyphens from `'-' :: d ++ ['-']` recovers a canonical `d`. -/
theorem stripP_hyphen_both {d : Name} (h : Canon d) :
    stripP (fun c => c = '-') ('-' :: (d ++ ['-'])) = d := by
  rw [stripP, lstripP, List.dropWhile_cons_of_pos (by simp)]
  rw [dropWhile_eq_self_of_head (fun hd => by
    rw [decide_eq_false_iff_not]
    rcases List.exists_cons_of_ne_nil h.1 with ⟨c, r, rfl⟩
    rw [List.cons_append] at hd
    cases hd
    exact canon_head_ne h rfl)]
  rw [rstripP_eq_rdropWhile, List.rdropWhile_concat_pos _ _ _ (by simp),
    ← rstripP_eq_rdropWhile]
  exact rstripP_eq_self_canon h

/-- Normalizing a canonical description with a `YYYY-MM-` prefix
recovers the description. -/
theorem normalize_prefixed {d : Name} (h : Canon d) (y m : Nat) :
    normalizeDescription (strftimeYM y m ++ '-' :: d) = d := by
  have h1 : stripDigits (strftimeYM y m ++ '-' :: d) = '-' :: '-' :: d := by
    rw [stripDigits_append, stripDigits_strftimeYM,
      show stripDigits ('-' :: d) = '-' :: stripDigits d from
        List.filter_cons_of_pos (by decide),
      stripDigits_no_digits (canon_not_digit h)]
    rfl
  have h3 : subRuns isAlnumAscii '-' false ('-' :: '-' :: d) = '-' :: d := by
    rw [subRuns, if_neg (by decide), if_neg (by simp)]
    rw [subRuns, if_neg (by decide), if_pos rfl]
    rw [(subRuns_canon h).2]
  simp only [normalizeDescription]
  rw [h1, h3, stripP_hyphen_cons h, canon_toLower_fixed h, if_neg h.1]

/-- Normalizing a canonical description with a `YYYY-MM-` prefix and a
`-counter` suffix also recovers the description. -/
theorem normalize_prefixed_counter {d : Name} (h : Canon d) (y m k : Nat) :
    normalizeDescription ((strftimeYM y m ++ '-' :: d) ++ '-' :: natDigits k) = d := by
  have h1 : stripDigits ((strftimeYM y m ++ '-' :: d) ++ '-' :: natDigits k) =
      '-' :: '-' :: (d ++ ['-']) := by
    rw [stripDigits_append, stripDigits_append, stripDigits_strftimeYM,
      show stripDigits ('-' :: d) = '-' :: stripDigits d from
        List.filter_cons_of_pos (by decide),
      show stripDigits ('-' :: natDigits k) = '-' :: stripDigits (natDigits k) from
        List.filter_cons_of_pos (by decide),
      stripDigits_no_digits (canon_not_digit h),
      stripDigits_all_digits (fun c hc => mem_natDigits_isDigit hc)]
    simp
  have h3 : subRuns isAlnumAscii '-' false ('-' :: '-' :: (d ++ ['-'])) =
      '-' :: (d ++ ['-']) := by
    rw [subRuns, if_neg (by decide), if_neg (by simp)]
    rw [subRuns, if_neg (by decide), if_pos rfl]
    rw [subRuns_canon_concat h]
  simp only [normalizeDescription]
  rw [h1, h3, stripP_hyphen_both h, canon_toLower_fixed h, if_neg h.1]

/-! ### `pyStem` / `pySuffix` structure -/

theorem takeWhile_append_all {p : Char → Bool} :
    ∀ {l₁ : Name}, (∀ c ∈ l₁, p c = true) → ∀ l₂ : Name,
      (l₁ ++ l₂).takeWhile p = l₁ ++ l₂.takeWhile p := by
  intro l₁
  induction l₁ with
  | nil => intro _ l₂; simp
  | cons a t ih =>
    intro h l₂
    rw [List.cons_append, List.takeWhile_cons_of_pos (h a (List.mem_cons_self _ _)),
      ih (fun c hc => h c (List.mem_cons_of_mem _ hc)) l₂, List.cons_append]

theorem takeWhile_eq_self_all {p : Char → Bool} {l : Name}
    (h : ∀ c ∈ l, p c = true) : l.takeWhile p = l := by
  have := takeWhile_append_all h ([] : Name)
  simpa using this

/-- Splitting a dot-free name: the whole name is the stem, no suffix. -/
theorem pySplit_dotfree {s : Name} (h : ∀ c ∈ s, c ≠ '.') :
    pyStem s = s ∧ pySuffix s = [] := by
  have ht : tailAfterDot s = s := by
    rw [tailAfterDot, takeWhile_eq_self_all (fun c hc => by
      rw [decide_eq_true_eq]
      exact h c (List.mem_reverse.mp hc)), List.reverse_reverse]
  constructor
  · rw [pyStem]
    simp [ht]
  · rw [pySuffix]
    simp [ht]

/-- Splitting a name of the form `stem ++ '.' :: ext` with a dot-free
nonempty stem and dot-free nonempty extension tail. -/
theorem pySplit_append {s₁ t : Name} (_h₁ : ∀ c ∈ s₁, c ≠ '.') (hs : s₁ ≠ [])
    (ht : ∀ c ∈ t, c ≠ '.') (htn : t ≠ []) :
    pyStem (s₁ ++ '.' :: t) = s₁ ∧ pySuffix (s₁ ++ '.' :: t) = '.' :: t := by
  have htl : tailAfterDot (s₁ ++ '.' :: t) = t := by
    rw [tailAfterDot, List.reverse_append, List.reverse_cons, List.append_assoc,
      takeWhile_append_all (fun c hc => by
        rw [decide_eq_true_eq]
        exact ht c (List.mem_reverse.mp hc)),
      List.singleton_append, List.takeWhile_cons_of_neg (by simp),
      List.append_nil, List.reverse_reverse]
  have hlen : (s₁ ++ '.' :: t).length = s₁.length + 1 + t.length := by
    simp [List.length_append]
    omega
  have hslen : 0 < s₁.length := List.length_pos.mpr hs
  have hne : ¬ t.length = (s₁ ++ '.' :: t).length := by
    rw [hlen]; omega
  have hidx : (s₁ ++ '.' :: t).length - t.length - 1 = s₁.length := by
    rw [hlen]; omega
  constructor
  · rw [pyStem]
    simp only [htl, if_neg hne, hidx]
    rw [if_pos (And.intro hslen htn)]
    exact List.take_left' rfl
  · rw [pySuffix]
    simp only [htl, if_neg hne, hidx]
    rw [if_pos (And.intro hslen htn)]

/-- Shape of every `pySuffix`: empty, or a dot followed by a nonempty
dot-free tail (with a nonempty remaining stem). -/
theorem pySuffix_shape (s : Name) :
    pySuffix s = [] ∨
      ∃ t, pySuffix s = '.' :: t ∧ t ≠ [] ∧ ∀ c ∈ t, c ≠ '.' := by
  rw [pySuffix]
  by_cases h1 : (tailAfterDot s).length = s.length
  · left; rw [if_pos h1]
  · rw [if_neg h1]
    by_cases h2 : 0 < s.length - (tailAfterDot s).length - 1 ∧ tailAfterDot s ≠ []
    · right
      refine ⟨tailAfterDot s, by rw [if_pos h2], h2.2, ?_⟩
      intro c hc
      have hmem : c ∈ (s.reverse.takeWhile (fun c => c ≠ '.')) :=
        List.mem_reverse.mp (by simpa [tailAfterDot] using hc)
      have := List.mem_takeWhile_imp hmem
      simpa using this
    · left; rw [if_neg h2]

/-! ### Collision loop: termination and the least free candidate -/

theorem collisionLoop_reaches {blocked : Name → Bool} {next : Nat → Name} {base : Name} :
    ∀ (fuel j k₀ : Nat), j ≤ k₀ → k₀ < j + fuel →
      (∀ i, j ≤ i → i < k₀ → blocked (candL base next i) = true) →
      blocked (candL base next k₀) = false →
      collisionLoop blocked next fuel (j + 1) (candL base next j) = candL base next k₀ := by
  intro fuel
  induction fuel with
  | zero => intro j k₀ h1 h2 _ _; omega
  | succ f ih =>
    intro j k₀ h1 h2 hblocked hfree
    rw [collisionLoop]
    by_cases hj : j = k₀
    · subst hj
      rw [hfree]
      simp
    · have hj' : j < k₀ := lt_of_le_of_ne h1 hj
      rw [hblocked j le_rfl hj']
      simp only [if_true]
      rw [show next (j + 1) = candL base next (j + 1) from rfl]
      exact ih (j + 1) k₀ (by omega) (by omega)
        (fun i hi1 hi2 => hblocked i (by omega) hi2) hfree

/-- The collision loop always finds a free candidate within the fuel
bound: the blocked names live in a finite set `S`, and the suffixed
candidates are pairwise distinct, so among `S.card + 1` of them one is
free.  The loop returns the least free candidate, for any surplus fuel. -/
theorem collisionLoop_spec {blocked : Name → Bool} {next : Nat → Name} (base : Name)
    {S : Finset Name} (hB : ∀ c, blocked c = true → c ∈ S)
    (hInj : ∀ i j, next i = next j → i = j) :
    ∃ k₀, k₀ ≤ S.card + 1 ∧
      (∀ i, i < k₀ → blocked (candL base next i) = true) ∧
      blocked (candL base next k₀) = false ∧
      ∀ extra, collisionLoop blocked next (S.card + 2 + extra) 1 base =
        candL base next k₀ := by
  have hex : ∃ i, i ≤ S.card + 1 ∧ blocked (candL base next i) = false := by
    by_contra hc
    push_neg at hc
    have hall : ∀ i, i ≤ S.card + 1 → blocked (candL base next i) = true := by
      intro i hi
      have := hc i hi
      cases hb : blocked (candL base next i)
      · exact absurd hb this
      · rfl
    have hmap : ∀ a ∈ Finset.range (S.card + 1), next (a + 1) ∈ S := by
      intro a ha
      have ha' : a + 1 ≤ S.card + 1 := by
        have := Finset.mem_range.mp ha
        omega
      have := hall (a + 1) ha'
      exact hB _ (by rw [show next (a + 1) = candL base next (a + 1) from rfl]; exact this)
    obtain ⟨x, hx, y, hy, hxy, hfxy⟩ :=
      Finset.exists_ne_map_eq_of_card_lt_of_maps_to
        (by rw [Finset.card_range]; omega) hmap
    have hxy' := hInj _ _ hfxy
    exact hxy (by omega)
  obtain ⟨i₀, hi₀le, hi₀⟩ := hex
  have hfind : ∃ i, blocked (candL base next i) = false := ⟨i₀, hi₀⟩
  refine ⟨Nat.find hfind, le_trans (Nat.find_min' hfind hi₀) hi₀le, ?_, Nat.find_spec hfind, ?_⟩
  · intro i hi
    have := Nat.find_min hfind hi
    cases hb : blocked (candL base next i)
    · exact absurd hb this
    · rfl
  · intro extra
    have := collisionLoop_reaches (S.card + 2 + extra) 0 (Nat.find hfind)
      (Nat.zero_le _)
      (by have := le_trans (Nat.find_min' hfind hi₀) hi₀le; omega)
      (fun i _ hi2 => by
        have := Nat.find_min hfind hi2
        cases hb : blocked (candL base next i)
        · exact absurd hb this
        · rfl)
      (Nat.find_spec hfind)
    simpa using this

/-! ### `_resolve_target` candidate structure -/

/-- Candidate sequence of `_resolve_target` for file `f`. -/
def candRM (f : Name) (y m : Nat) : Nat → Name :=
  candL (buildTargetName f y m) (nextRM (buildTargetName f y m) f)

theorem strftime_no_dot (y m : Nat) : ∀ c ∈ strftimeYM y m, c ≠ '.' := by
  intro c hc
  rcases List.mem_append.mp hc with h | h
  · exact isDigit_ne_dot (padNum_digits c h)
  · rcases List.mem_cons.mp h with rfl | h
    · decide
    · exact isDigit_ne_dot (padNum_digits c h)

theorem stemBase_no_dot (n : Name) (y m : Nat) :
    ∀ c ∈ strftimeYM y m ++ '-' :: normalizeDescription (pyStem n), c ≠ '.' := by
  intro c hc
  rcases List.mem_append.mp hc with h | h
  · exact strftime_no_dot y m c h
  · rcases List.mem_cons.mp h with rfl | h
    · decide
    · exact canon_no_dot (canon_normalizeDescription _) c h

theorem buildTargetName_decomp (n : Name) (y m : Nat) :
    buildTargetName n y m =
      (strftimeYM y m ++ '-' :: normalizeDescription (pyStem n)) ++ pySuffix n := by
  simp [buildTargetName]

/-- Splitting a built target name recovers its stem and the source's
suffix. -/
theorem pySplit_buildTargetName (n : Name) (y m : Nat) :
    pyStem (buildTargetName n y m) =
        strftimeYM y m ++ '-' :: normalizeDescription (pyStem n) ∧
      pySuffix (buildTargetName n y m) = pySuffix n := by
  have hne : (strftimeYM y m ++ '-' :: normalizeDescription (pyStem n) : Name) ≠ [] := by
    simp [strftimeYM]
  rcases pySuffix_shape n with he | ⟨t, he, htn, htd⟩
  · rw [buildTargetName_decomp, he, List.append_nil]
    exact pySplit_dotfree (stemBase_no_dot n y m)
  · rw [buildTargetName_decomp, he]
    exact pySplit_append (stemBase_no_dot n y m) hne htd htn

theorem nextRM_injective (base f : Name) :
    ∀ i j, nextRM base f i = nextRM base f j → i = j := by
  intro i j h
  rw [nextRM, nextRM] at h
  have h1 := List.append_cancel_left (List.append_cancel_right h)
  rw [List.cons.injEq] at h1
  exact natDigits_injective h1.2

theorem candRM_injective (f : Name) (y m : Nat) :
    ∀ i j, candRM f y m i = candRM f y m j → i = j := by
  have hsplit := pySplit_buildTargetName f y m
  intro i j h
  match i, j with
  | 0, 0 => rfl
  | 0, j + 1 =>
    exfalso
    rw [candRM, candL, candL, nextRM, hsplit.1, buildTargetName_decomp] at h
    have h1 := List.append_cancel_right h
    have h2 := congrArg List.length h1
    simp only [List.length_cons, List.length_append] at h2
    omega
  | i + 1, 0 =>
    exfalso
    rw [candRM, candL, candL, nextRM, hsplit.1, buildTargetName_decomp] at h
    have h1 := List.append_cancel_right h.symm
    have h2 := congrArg List.length h1
    simp only [List.length_cons, List.length_append] at h2
    omega
  | i + 1, j + 1 =>
    rw [candRM, candL, candL] at h
    exact nextRM_injective _ _ _ _ h

/-- Master specification of `_resolve_target`: the loop stops at the
least free candidate index, within the fuel bound. -/
theorem resolveTarget_spec (f : Name) (y m : Nat) (E R : Finset Name) :
    ∃ k₀, k₀ ≤ E.card + R.card + 1 ∧
      (∀ i, i < k₀ → blockedRM f E R (candRM f y m i) = true) ∧
      blockedRM f E R (candRM f y m k₀) = false ∧
      resolveTarget f y m E R = candRM f y m k₀ := by
  have hB : ∀ c, blockedRM f E R c = true → c ∈ E ∪ R := by
    intro c hc
    rw [blockedRM, Bool.or_eq_true, Bool.and_eq_true, decide_eq_true_eq,
      decide_eq_true_eq, decide_eq_true_eq] at hc
    rcases hc with ⟨h1, _⟩ | h2
    · exact Finset.mem_union_left _ h1
    · exact Finset.mem_union_right _ h2
  obtain ⟨k₀, hle, hbl, hfr, hloop⟩ :=
    @collisionLoop_spec (blockedRM f E R) (nextRM (buildTargetName f y m) f)
      (buildTargetName f y m) (E ∪ R) hB (nextRM_injective _ _)
  have hcard := Finset.card_union_le E R
  refine ⟨k₀, by omega, hbl, hfr, ?_⟩
  have hfuel : fuelBound E R = (E ∪ R).card + 2 + (E.card + R.card - (E ∪ R).card) := by
    rw [fuelBound]; omega
  simp only [resolveTarget]
  rw [hfuel]
  exact hloop _

/-- Splitting `sb ++ pySuffix n` for a dot-free nonempty `sb`. -/
theorem pySplit_stem_suffix {sb : Name} (hsb : ∀ c ∈ sb, c ≠ '.') (hne : sb ≠ [])
    (n : Name) :
    pyStem (sb ++ pySuffix n) = sb ∧ pySuffix (sb ++ pySuffix n) = pySuffix n := by
  rcases pySuffix_shape n with he | ⟨t, he, htn, htd⟩
  · rw [he, List.append_nil]
    exact pySplit_dotfree hsb
  · rw [he]
    exact pySplit_append hsb hne htd htn

theorem candRM_zero (n : Name) (y m : Nat) : candRM n y m 0 = buildTargetName n y m := rfl

theorem candRM_succ (n : Name) (y m k : Nat) :
    candRM n y m (k + 1) =
      ((strftimeYM y m ++ '-' :: normalizeDescription (pyStem n)) ++
        '-' :: natDigits (k + 1)) ++ pySuffix n := by
  rw [candRM, candL, nextRM, (pySplit_buildTargetName n y m).1]

/-- Stem/suffix structure of every candidate: its normalized stem is the
normalized stem of the original file, and its suffix is the original
suffix. -/
theorem pySplit_candRM (n : Name) (y m : Nat) :
    ∀ k, normalizeDescription (pyStem (candRM n y m k)) =
        normalizeDescription (pyStem n) ∧
      pySuffix (candRM n y m k) = pySuffix n := by
  intro k
  have hcanon := canon_normalizeDescription (pyStem n)
  match k with
  | 0 =>
    rw [candRM_zero]
    have h := pySplit_buildTargetName n y m
    refine ⟨?_, h.2⟩
    rw [h.1]
    exact normalize_prefixed hcanon y m
  | k + 1 =>
    rw [candRM_succ]
    have hsb : ∀ c ∈ ((strftimeYM y m ++ '-' :: normalizeDescription (pyStem n)) ++
        '-' :: natDigits (k + 1) : Name), c ≠ '.' := by
      intro c hc
      rcases List.mem_append.mp hc with h | h
      · exact stemBase_no_dot n y m c h
      · rcases List.mem_cons.mp h with rfl | h
        · decide
        · exact isDigit_ne_dot (mem_natDigits_isDigit h)
    have hne : ((strftimeYM y m ++ '-' :: normalizeDescription (pyStem n)) ++
        '-' :: natDigits (k + 1) : Name) ≠ [] := by
      simp
    have h := pySplit_stem_suffix hsb hne n
    refine ⟨?_, h.2⟩
    rw [h.1]
    exact normalize_prefixed_counter hcanon y m (k + 1)

/-- Re-building the target name of any candidate reproduces the
original base name (same directory, same modification time). -/
theorem buildTargetName_candRM (n : Name) (y m k : Nat) :
    buildTargetName (candRM n y m k) y m = buildTargetName n y m := by
  have h := pySplit_candRM n y m k
  rw [buildTargetName_decomp (candRM n y m k) y m, buildTargetName_decomp n y m,
    h.1, h.2]

/-- The candidate sequence of a candidate is the original candidate
sequence. -/
theorem candRM_candRM (n : Name) (y m k : Nat) :
    ∀ j, candRM (candRM n y m k) y m j = candRM n y m j := by
  intro j
  match j with
  | 0 => rw [candRM_zero, candRM_zero, buildTargetName_candRM]
  | j + 1 =>
    calc candRM (candRM n y m k) y m (j + 1)
        = pyStem (buildTargetName (candRM n y m k) y m) ++ '-' :: natDigits (j + 1)
            ++ pySuffix (candRM n y m k) := rfl
      _ = pyStem (buildTargetName n y m) ++ '-' :: natDigits (j + 1) ++ pySuffix n := by
          rw [buildTargetName_candRM, (pySplit_candRM n y m k).2]
      _ = candRM n y m (j + 1) := rfl

/-! ### `plan_renames` and `main` of `rename_media.py` -/

/-- A directory entry with its modification time (year/month fields). -/
structure FileEntry where
  name : Name
  year : Nat
  month : Nat
deriving DecidableEq

/-- The resolve-and-reserve loop of `plan_renames`: each entry is
resolved against the (static, planning-time) directory contents and the
reserved set, and its target is added to the reserved set; all
(source, target) resolutions are returned, before the
`target != entry` filter. -/
def planResolutions (existing : Finset Name) :
    List FileEntry → Finset Name → List (Name × Name)
  | [], _ => []
  | f :: fs, reserved =>
    let target := resolveTarget f.name f.year f.month existing reserved
    (f.name, target) :: planResolutions existing fs (insert target reserved)

/-- `plan_renames` of `rename_media.py`: the sorted directory entries are
resolved against the directory's own contents with an initially empty
reserved set; only pairs with `target != entry` become plans. -/
def plan_renames (entries : List FileEntry) : List (Name × Name) :=
  (planResolutions ((entries.map FileEntry.name).toFinset) entries ∅).filter
    (fun p => p.2 ≠ p.1)

/-- `main` of `rename_media.py`: `plan_renames` raises
`NotADirectoryError` when the argument is not a directory; `main`
catches it, reports on stderr and returns 2 with no operation executed;
otherwise `apply_plans` returns the operations (the same list in
dry-run, which only skips the filesystem mutation) and `main` returns 0.
Result: (exit status, executed operations). -/
def rename_media_main (isDir : Bool) (entries : List FileEntry) :
    Nat × List (Name × Name) :=
  if !isDir then (2, [])
  else (0, plan_renames entries)

/-! ### `organize_files.py` -/

/-- `determine_category` of `organize_files.py`:
`suffix = path.suffix.lower().lstrip("."); return suffix if suffix else
"no_extension"`. -/
def determine_category (name : Name) : Name :=
  let suffix := lstripP (fun c => c = '.') ((pySuffix name).map Char.toLower)
  if suffix ≠ [] then suffix else "no_extension".data

/-- Loop guard shared by `move_file_to_category` and
`ensure_unique_path`: plain `destination.exists()`. -/
def blockedExists (existing : Finset Name) (c : Name) : Bool := decide (c ∈ existing)

/-- `move_file_to_category` of `organize_files.py`: destination name in
the category directory, disambiguated with `_{counter}` suffixes built
from the file's stem and suffix. -/
def move_file_to_category (fname : Name) (existing : Finset Name) : Name :=
  collisionLoop (blockedExists existing)
    (fun k => pyStem fname ++ '_' :: natDigits k ++ pySuffix fname)
    (fuelBound existing ∅) 1 fname

/-- `organize_files` of `organize_files.py`: route each top-level file
into its category directory (collision-avoided against that directory's
current contents, which grow as files are moved).  The category
directories' contents are a finite set of (category, filename) pairs;
returns the (category, destination) moves in order. -/
def organize_files : List Name → Finset (Name × Name) → List (Name × Name)
  | [], _ => []
  | f :: fs, catFS =>
    let category := determine_category f
    let dest := move_file_to_category f
      ((catFS.filter (fun p => p.1 = category)).image Prod.snd)
    (category, dest) :: organize_files fs (insert (category, dest) catFS)

/-- `main` of `organize_files.py`: `ensure_target_directory` raises
`FileNotFoundError` / `NotADirectoryError` for a missing path or a
non-directory; the blanket `except` in `main` logs
`"Organization failed"` and `main` returns `None`, so the process exit
status is 0 in every case.  Result: (exit status, error logged?,
performed moves). -/
def organize_files_main (pathExists isDir : Bool) (files : List Name)
    (catFS : Finset (Name × Name)) : Nat × Bool × List (Name × Name) :=
  if !pathExists then (0, true, [])
  else if !isDir then (0, true, [])
  else (0, false, organize_files files catFS)

/-! ### `apply_structure.py` -/

/-- Character class of `INVALID_CHARACTERS = [^A-Za-z0-9._-]+` (kept
characters). -/
def isAllowedSan (c : Char) : Bool := isAlnumAscii c || c = '.' || c = '_' || c = '-'

/-- `sanitize_stem` of `apply_structure.py`.  The Unicode NFKD
normalization is modelled as the identity and the
`encode("ascii", "ignore")` step as the ASCII filter; the invariant
proved below holds for every character list entering the regex pipeline,
hence for every input regardless of how NFKD is modelled.
`MULTIPLE_SEPARATORS = _{2,}` is modelled as run-collapsing of
underscores (a single underscore is left unchanged by both). -/
def sanitize_stem (stem : Name) : Name :=
  let ascii_only := stem.filter (fun c => c.toNat ≤ 127)
  let cleaned1 := subRuns isAllowedSan '_' false
    ((stripP isPyWs ascii_only).map Char.toLower)
  let cleaned2 := stripP (fun c => c = '.' ∨ c = '_')
    (subRuns (fun c => c ≠ '_') '_' false cleaned1)
  if cleaned2 = [] then "unnamed".data
  else if 80 < cleaned2.length then rstripP (fun c => c = '.' ∨ c = '_') (cleaned2.take 80)
  else cleaned2

/-- Loop guard of `move_file` in `apply_structure.py`:
`destination.exists() and destination != file_path`.  `self?` is the
file's own name when the file already resides in the destination
directory, `none` when it lives elsewhere (as when `apply_rules` moves a
root-level file into a category folder, where the path inequality always
holds). -/
def blockedAS (self? : Option Name) (existing : Finset Name) (c : Name) : Bool :=
  decide (c ∈ existing) && decide (self? ≠ some c)

/-- `move_file` of `apply_structure.py`: destination name resolution
`f"{sanitized}{file_path.suffix.lower()}"` with `_{counter}`
disambiguation. -/
def move_file (fname : Name) (self? : Option Name) (existing : Finset Name) : Name :=
  let sanitized := sanitize_stem (pyStem fname)
  let ext := (pySuffix fname).map Char.toLower
  collisionLoop (blockedAS self? existing)
    (fun k => sanitized ++ '_' :: natDigits k ++ ext)
    (fuelBound existing ∅) 1 (sanitized ++ ext)

/-- `apply_rules` with `dry_run=True`, restricted to files routed to one
destination directory: every file's destination is computed by
`move_file`, but no file is materialized, so each resolution sees the
same directory contents. -/
def apply_rules_dry_run (files : List (Name × Option Name)) (existing : Finset Name) :
    List Name :=
  files.map (fun f => move_file f.1 f.2 existing)

/-! ### `photo_migration.py` -/

/-- A media file as seen by `migrate_photos`: its filename, its
modification-time year (`none` models the `OSError` from `stat()`), and
whether it already lies under the destination root. -/
structure MediaFile where
  name : Name
  mtimeYear : Option Nat
  underDest : Bool
deriving DecidableEq

/-- `destination_for` of `photo_migration.py`:
`<destination>/<year>/<extension>/<name>`, or `MigrationError` (carrying
the message f-string) when the timestamp cannot be read. -/
def destination_for (f : MediaFile) : Except Name (Nat × Name × Name) :=
  match f.mtimeYear with
  | none => .error ("Unable to read timestamp for ".data ++ f.name)
  | some y =>
    let extension_folder :=
      let e := lstripP (fun c => c = '.') ((pySuffix f.name).map Char.toLower)
      if e = [] then "other".data else e
    .ok (y, extension_folder, f.name)

/-- `ensure_unique_path` of `photo_migration.py`: append `_{counter}`
before the extension until the name is free in its directory. -/
def ensure_unique_path (destName : Name) (existing : Finset Name) : Name :=
  collisionLoop (blockedExists existing)
    (fun k => pyStem destName ++ '_' :: natDigits k ++ pySuffix destName)
    (fuelBound existing ∅) 1 destName

/-- `MigrationResult` of `photo_migration.py` (`by_extension` is the
`Counter`, modelled as a multiset of lowercased suffixes). -/
structure MigrationResult where
  moved : Nat
  copied : Nat
  skipped : Nat
  byExtension : Multiset Name
deriving DecidableEq

/-- `migrate_photos` of `photo_migration.py`: files already under the
destination are skipped; otherwise the destination is computed by
`destination_for` — an unhandled `MigrationError` propagates out,
aborting the remaining files — then made unique in its
`<year>/<extension>` folder and moved/copied (the destination filesystem
gains the file unless in dry-run).  The destination filesystem is a
finite set of `(year, extension-folder, name)` triples. -/
def migrate_photos (copyOnly dryRun : Bool) :
    List MediaFile → Finset (Nat × Name × Name) → MigrationResult →
      Except Name MigrationResult
  | [], _, acc => .ok acc
  | f :: fs, destFS, acc =>
    if f.underDest then
      migrate_photos copyOnly dryRun fs destFS { acc with skipped := acc.skipped + 1 }
    else
      match destination_for f with
      | .error e => .error e
      | .ok (y, ext, fname) =>
        let uniq := ensure_unique_path fname
          ((destFS.filter (fun p => p.1 = y ∧ p.2.1 = ext)).image (fun p => p.2.2))
        let destFS' := if dryRun then destFS else insert (y, ext, uniq) destFS
        let acc' :=
          if copyOnly then
            { acc with
              copied := acc.copied + 1
              byExtension := ((pySuffix f.name).map Char.toLower) ::ₘ acc.byExtension }
          else
            { acc with
              moved := acc.moved + 1
              byExtension := ((pySuffix f.name).map Char.toLower) ::ₘ acc.byExtension }
        migrate_photos copyOnly dryRun fs destFS' acc'

/-! ### Spec formulation of the description normalization (for C9) -/

theorem length_dropWhile_le (p : Char → Bool) (l : List Char) :
    (l.dropWhile p).length ≤ l.length :=
  (List.dropWhile_suffix p).length_le

/-- The spec's wording of the run replacement — "replace runs of
non-alphanumeric characters with a single hyphen" — as explicit
run-skipping recursion, deliberately formulated differently from the
source's state-machine `subRuns`, to be compared with it. -/
def replaceRunsSpec : List Char → List Char
  | [] => []
  | c :: cs =>
    if isAlnumAscii c then c :: replaceRunsSpec cs
    else '-' :: replaceRunsSpec (cs.dropWhile (fun d => !isAlnumAscii d))
termination_by l => l.length
decreasing_by
  · simp only [List.length_cons]
    omega
  · simp only [List.length_cons]
    have := length_dropWhile_le (fun d => !isAlnumAscii d) cs
    omega

/-- The spec's description policy, word for word: strip digits, replace
runs of non-alphanumeric characters with a single hyphen, trim
leading/trailing hyphens, lowercase; an empty result becomes the literal
fallback `file`. -/
def normalizeDescriptionSpec (name : Name) : Name :=
  let without_digits := stripDigits name
  let cleaned := stripP (fun c => c = '-') (replaceRunsSpec without_digits)
  let lowered := cleaned.map Char.toLower
  if lowered = [] then "file".data else lowered

theorem subRuns_true_eq_dropWhile (keep : Char → Bool) (rep : Char) :
    ∀ l, subRuns keep rep true l =
      subRuns keep rep false (l.dropWhile (fun d => !keep d)) := by
  intro l
  induction l with
  | nil => rfl
  | cons c cs ih =>
    by_cases hk : keep c
    · rw [List.dropWhile_cons_of_neg (by simp [hk])]
      simp [subRuns, hk]
    · rw [subRuns, if_neg hk, if_pos rfl, List.dropWhile_cons_of_pos (by simp [hk]), ih]

theorem subRuns_eq_replaceRunsSpec (l : List Char) :
    subRuns isAlnumAscii '-' false l = replaceRunsSpec l := by
  generalize hn : l.length = n
  induction n using Nat.strong_induction_on generalizing l with
  | _ n ih =>
    match l with
    | [] =>
      rw [replaceRunsSpec]
      rfl
    | c :: cs =>
      rw [replaceRunsSpec, subRuns]
      by_cases hk : isAlnumAscii c
      · rw [if_pos hk, if_pos hk,
          ih cs.length (by rw [← hn]; simp) cs rfl]
      · rw [if_neg hk, if_neg hk, if_neg (by simp), subRuns_true_eq_dropWhile,
          ih (cs.dropWhile (fun d => !isAlnumAscii d)).length
            (by rw [← hn]; have := length_dropWhile_le (fun d => !isAlnumAscii d) cs; simp; omega)
            (cs.dropWhile (fun d => !isAlnumAscii d)) rfl]

/-! ### Further resolver facts -/

/-- The resolved target is never reserved and never the name of an
existing file other than the source. -/
theorem resolveTarget_free (f : Name) (y m : Nat) (E R : Finset Name) :
    resolveTarget f y m E R ∉ R ∧
      (resolveTarget f y m E R ∈ E → resolveTarget f y m E R = f) := by
  obtain ⟨k₀, _, _, hfr, heq⟩ := resolveTarget_spec f y m E R
  rw [heq]
  rw [blockedRM, Bool.or_eq_false_iff, Bool.and_eq_false_iff] at hfr
  constructor
  · intro hmem
    have := hfr.2
    simp [hmem] at this
  · intro hmem
    rcases hfr.1 with h | h
    · simp [hmem] at h
    · simpa using h

/-- A free initial candidate is returned unchanged by the loop. -/
theorem collisionLoop_base_free {blocked : Name → Bool} {next : Nat → Name}
    {base : Name} (hfree : blocked base = false) (fuel : Nat) (hf : 0 < fuel) :
    collisionLoop blocked next fuel 1 base = base := by
  have h := @collisionLoop_reaches blocked next base
    fuel 0 0 le_rfl (by omega) (fun i h1 h2 => absurd h2 (by omega)) hfree
  simpa using h

theorem nextUnderscore_injective (s e : Name) :
    ∀ i j : Nat, s ++ '_' :: natDigits i ++ e = s ++ '_' :: natDigits j ++ e → i = j := by
  intro i j h
  have h1 := List.append_cancel_left (List.append_cancel_right h)
  rw [List.cons.injEq] at h1
  exact natDigits_injective h1.2

/-- `ensure_unique_path` never returns an existing name. -/
theorem ensure_unique_path_free (destName : Name) (E : Finset Name) :
    ensure_unique_path destName E ∉ E := by
  obtain ⟨k₀, _, _, hfr, hloop⟩ :=
    @collisionLoop_spec (blockedExists E)
      (fun k => pyStem destName ++ '_' :: natDigits k ++ pySuffix destName)
      destName E
      (fun c hc => by simpa [blockedExists] using hc)
      (nextUnderscore_injective _ _)
  have hres : ensure_unique_path destName E =
      candL destName (fun k => pyStem destName ++ '_' :: natDigits k ++ pySuffix destName) k₀ := by
    rw [ensure_unique_path, show fuelBound E ∅ = E.card + 2 + 0 from by rw [fuelBound]; simp]
    exact hloop 0
  rw [hres]
  intro hmem
  rw [blockedExists, decide_eq_false_iff_not] at hfr
  exact hfr hmem

/-! ### `plan_renames` batch invariants -/

theorem planResolutions_target_not_reserved (existing : Finset Name) :
    ∀ (fs : List FileEntry) (R : Finset Name) (p : Name × Name),
      p ∈ planResolutions existing fs R → p.2 ∉ R := by
  intro fs
  induction fs with
  | nil => intro R p hp; simp [planResolutions] at hp
  | cons f fs ih =>
    intro R p hp
    rw [planResolutions] at hp
    rcases List.mem_cons.mp hp with rfl | hp
    · exact (resolveTarget_free f.name f.year f.month existing R).1
    · intro hmem
      exact ih _ p hp (Finset.mem_insert_of_mem hmem)

theorem planResolutions_targets_nodup (existing : Finset Name) :
    ∀ (fs : List FileEntry) (R : Finset Name),
      ((planResolutions existing fs R).map Prod.snd).Nodup := by
  intro fs
  induction fs with
  | nil => intro R; simp [planResolutions]
  | cons f fs ih =>
    intro R
    rw [planResolutions]
    simp only [List.map_cons, List.nodup_cons]
    refine ⟨?_, ih _⟩
    intro hmem
    rcases List.mem_map.mp hmem with ⟨p, hp, hp2⟩
    have := planResolutions_target_not_reserved existing fs _ p hp
    rw [hp2] at this
    exact this (Finset.mem_insert_self _ _)

theorem planResolutions_no_foreign_collision (existing : Finset Name) :
    ∀ (fs : List FileEntry) (R : Finset Name) (p : Name × Name),
      p ∈ planResolutions existing fs R → p.2 ∈ existing → p.2 = p.1 := by
  intro fs
  induction fs with
  | nil => intro R p hp; simp [planResolutions] at hp
  | cons f fs ih =>
    intro R p hp hmem
    rw [planResolutions] at hp
    rcases List.mem_cons.mp hp with rfl | hp
    · exact (resolveTarget_free f.name f.year f.month existing R).2 hmem
    · exact ih _ p hp hmem

/-! ### `sanitize_stem` invariant -/

/-- `Char.toLower` never produces an uppercase ASCII letter. -/
theorem toLower_not_upper (c : Char) :
    (('A' ≤ c.toLower) && (c.toLower ≤ 'Z')) = false := by
  rw [toLower_unfold]
  by_cases hg : c.toNat ≥ 65 ∧ c.toNat ≤ 90
  · rw [if_pos hg]
    have hv : (Char.ofNat (c.toNat + 32)).toNat = c.toNat + 32 :=
      char_toNat_ofNat (by omega)
    rw [Bool.and_eq_false_iff]
    right
    rw [decide_eq_false_iff_not]
    intro hle
    have := char_le_toNat hle
    rw [hv, show ('Z').toNat = 90 from rfl] at this
    omega
  · rw [if_neg hg]
    rw [Bool.and_eq_false_iff]
    by_cases h65 : 65 ≤ c.toNat
    · right
      rw [decide_eq_false_iff_not]
      intro hle
      have := char_le_toNat hle
      rw [show ('Z').toNat = 90 from rfl] at this
      omega
    · left
      rw [decide_eq_false_iff_not]
      intro hle
      have := char_le_toNat hle
      rw [show ('A').toNat = 65 from rfl] at this
      omega

/-- The output character class of the sanitizer pipeline. -/
abbrev allowedOut (c : Char) : Prop :=
  isLowerAlpha c = true ∨ isDigitChar c = true ∨ c = '.' ∨ c = '_' ∨ c = '-'

theorem allowedOut_of_san {c : Char} (hs : isAllowedSan c = true)
    (hu : (('A' ≤ c) && (c ≤ 'Z')) = false) : allowedOut c := by
  rw [isAllowedSan, Bool.or_eq_true, Bool.or_eq_true, Bool.or_eq_true] at hs
  rcases hs with ((h | h) | h) | h
  · rw [isAlnumAscii, Bool.or_eq_true, Bool.or_eq_true] at h
    rcases h with (h | h) | h
    · rw [h] at hu
      cases hu
    · exact Or.inl h
    · exact Or.inr (Or.inl h)
  · exact Or.inr (Or.inr (Or.inl (by simpa using h)))
  · exact Or.inr (Or.inr (Or.inr (Or.inl (by simpa using h))))
  · exact Or.inr (Or.inr (Or.inr (Or.inr (by simpa using h))))

/-- C10 invariant: `sanitize_stem` always returns a nonempty name of at
most 80 characters over lowercase letters, digits, `'.'`, `'_'`, `'-'`. -/
theorem sanitize_stem_invariant (stem : Name) :
    sanitize_stem stem ≠ [] ∧ (sanitize_stem stem).length ≤ 80 ∧
      ∀ c ∈ sanitize_stem stem, allowedOut c := by
  simp only [sanitize_stem]
  set lowered := (stripP isPyWs (stem.filter (fun c => c.toNat ≤ 127))).map Char.toLower
    with hlow
  set cleaned1 := subRuns isAllowedSan '_' false lowered with hc1
  set cleaned2 := stripP (fun c => c = '.' ∨ c = '_')
    (subRuns (fun c => c ≠ '_') '_' false cleaned1) with hc2
  have hmem1 : ∀ c ∈ cleaned1, allowedOut c := by
    intro c hc
    rcases mem_subRuns hc with rfl | ⟨hmem, hka⟩
    · exact Or.inr (Or.inr (Or.inr (Or.inl rfl)))
    · rw [hlow] at hmem
      rcases List.mem_map.mp hmem with ⟨c₀, _, rfl⟩
      exact allowedOut_of_san hka (toLower_not_upper c₀)
  have hmem2 : ∀ c ∈ cleaned2, allowedOut c := by
    intro c hc
    have hc' := stripP_subset c hc
    rcases mem_subRuns hc' with rfl | ⟨hmem, _⟩
    · exact Or.inr (Or.inr (Or.inr (Or.inl rfl)))
    · exact hmem1 c hmem
  have hhead : ∀ {c : Char} {r : Name}, cleaned2 = c :: r → ¬(c = '.' ∨ c = '_') := by
    intro c r hcr
    have := stripP_head_false (hc2 ▸ hcr)
    rwa [decide_eq_false_iff_not] at this
  by_cases h2 : cleaned2 = []
  · rw [if_pos h2]
    refine ⟨by decide, by decide, ?_⟩
    intro c hc
    exact (by decide :
      ∀ c ∈ (['u', 'n', 'n', 'a', 'm', 'e', 'd'] : List Char), allowedOut c) c hc
  · rw [if_neg h2]
    by_cases hlen : 80 < cleaned2.length
    · rw [if_pos hlen]
      rcases List.exists_cons_of_ne_nil h2 with ⟨c, r, hcr⟩
      refine ⟨?_, ?_, ?_⟩
      · intro hnil
        rw [rstripP_eq_nil_iff] at hnil
        have hc80 : c ∈ cleaned2.take 80 := by
          rw [hcr]
          rw [List.take_cons (by omega)]
          exact List.mem_cons_self _ _
        have := hnil c hc80
        rw [decide_eq_true_eq] at this
        exact hhead hcr this
      · calc (rstripP (fun c => c = '.' ∨ c = '_') (cleaned2.take 80)).length
            ≤ (cleaned2.take 80).length := rstripP_length_le _ _
          _ ≤ 80 := by rw [List.length_take]; omega
      · intro c' hc'
        have h1 : c' ∈ cleaned2.take 80 := rstripP_subset c' hc'
        exact hmem2 c' (List.take_subset _ _ h1)
    · rw [if_neg hlen]
      exact ⟨h2, by omega, hmem2⟩

/-! ## Claim theorems -/

/-- **C1, counterexample**: the claim says `IMG_20220101_Beach123.JPG`
resolves to `2022-01-img-beach.jpg` regardless of its modification time.
With modification time July 2024 (empty directory, empty reserved set)
the code resolves it to `2024-07-img-beach.JPG` instead: the prefix comes
from the modification time, not from the embedded date, and the
extension's case is preserved. -/
theorem C1_counterexample :
    resolveTarget "IMG_20220101_Beach123.JPG".data 2024 7 ∅ ∅ =
        "2024-07-img-beach.JPG".data ∧
      resolveTarget "IMG_20220101_Beach123.JPG".data 2024 7 ∅ ∅ ≠
        "2022-01-img-beach.jpg".data := by
  constructor
  · decide
  · decide

/-- **C1, amended**: `_build_target_name` never parses a date out of the
filename: for every modification time `(y, m)` the target for
`IMG_20220101_Beach123.JPG` is `<strftime y m>-img-beach.JPG` — the
`YYYY-MM` prefix is always the modification-time year/month and the
original extension (case preserved) is kept. -/
theorem C1_amended_prefix_from_mtime (y m : Nat) :
    buildTargetName "IMG_20220101_Beach123.JPG".data y m =
      (strftimeYM y m ++ '-' :: "img-beach".data) ++ ".JPG".data := by
  rw [buildTargetName_decomp]
  have h1 : normalizeDescription (pyStem ("IMG_20220101_Beach123.JPG".data)) =
      "img-beach".data := by decide
  have h2 : pySuffix ("IMG_20220101_Beach123.JPG".data) = ".JPG".data := by decide
  rw [h1, h2]

/-- **C2, counterexample**: a batch of three files whose middle file has
an unreadable timestamp.  `migrate_photos` returns the `MigrationError`
of the middle file: the batch is aborted, the third file is never
processed — the claim's "skip and continue" behaviour does not exist in
the code. -/
theorem C2_counterexample :
    migrate_photos false false
      [⟨"ok.jpg".data, some 2021, false⟩, ⟨"bad.jpg".data, none, false⟩,
       ⟨"later.png".data, some 2022, false⟩] ∅ ⟨0, 0, 0, 0⟩ =
      .error ("Unable to read timestamp for bad.jpg".data) := rfl

/-- **C2, amended**: when a file's timestamp cannot be read, the
`MigrationError` raised by `destination_for` propagates uncaught out of
`migrate_photos`: whenever all files before `f` process normally (are
skipped as already under the destination, or have readable timestamps)
and `f`'s timestamp is unreadable, the whole call returns the error and
no file after `f` is migrated. -/
theorem C2_amended_timestamp_aborts_batch (copyOnly dryRun : Bool) :
    ∀ (pre : List MediaFile) (f : MediaFile) (post : List MediaFile)
      (destFS : Finset (Nat × Name × Name)) (acc : MigrationResult),
      (∀ g ∈ pre, g.underDest = true ∨ g.mtimeYear ≠ none) →
      f.underDest = false → f.mtimeYear = none →
      migrate_photos copyOnly dryRun (pre ++ f :: post) destFS acc =
        .error ("Unable to read timestamp for ".data ++ f.name) := by
  intro pre
  induction pre with
  | nil =>
    intro f post destFS acc _ hud hmt
    rw [List.nil_append, migrate_photos, if_neg (by rw [hud]; simp),
      destination_for, hmt]
  | cons g pre ih =>
    intro f post destFS acc hpre hud hmt
    have hg := hpre g (List.mem_cons_self _ _)
    rw [List.cons_append, migrate_photos]
    rcases hg with hgud | hgmt
    · rw [if_pos (by rw [hgud])]
      exact ih f post destFS _ (fun g' hg' => hpre g' (List.mem_cons_of_mem _ hg')) hud hmt
    · by_cases hgu : g.underDest
      · rw [if_pos (by rw [hgu])]
        exact ih f post destFS _ (fun g' hg' => hpre g' (List.mem_cons_of_mem _ hg')) hud hmt
      · rw [if_neg (by simp [hgu])]
        rcases hy : g.mtimeYear with _ | y
        · exact absurd hy hgmt
        · rw [destination_for, hy]
          exact ih f post _ _ (fun g' hg' => hpre g' (List.mem_cons_of_mem _ hg')) hud hmt

/-- **C2, witness** for the amended theorem at a concrete batch. -/
theorem C2_witness :
    migrate_photos false false
      ([⟨"ok.jpg".data, some 2021, false⟩] ++ ⟨"bad.jpg".data, none, false⟩ ::
        [⟨"later.png".data, some 2022, false⟩]) ∅ ⟨0, 0, 0, 0⟩ =
      .error ("Unable to read timestamp for ".data ++ "bad.jpg".data) :=
  C2_amended_timestamp_aborts_batch false false
    [⟨"ok.jpg".data, some 2021, false⟩] ⟨"bad.jpg".data, none, false⟩
    [⟨"later.png".data, some 2022, false⟩] ∅ ⟨0, 0, 0, 0⟩
    (by decide) rfl rfl

/-- **C3, counterexample**: in dry-run, the organizer's `move_file`
(`apply_structure.py`) has no reserved set, and no file is materialized
between resolutions: the two source files `a b.txt` and `a_b.txt`, routed
to the same (initially empty) destination directory, both resolve to the
same target `a_b.txt`, so the batch's target names are not pairwise
distinct. -/
theorem C3_counterexample :
    apply_rules_dry_run [("a b.txt".data, none), ("a_b.txt".data, none)] ∅ =
        ["a_b.txt".data, "a_b.txt".data] ∧
      ¬ (apply_rules_dry_run [("a b.txt".data, none), ("a_b.txt".data, none)] ∅).Nodup := by
  constructor
  · decide
  · decide

/-- **C3, amended**: the batch invariant does hold for the media
renamer's `plan_renames`, which tracks a reserved set while planning
(also in dry-run, where planning is identical): for every batch of
entries, the resolved target names are pairwise distinct, and a target
is the name of a pre-existing file only when that file is the plan's own
source.  The organizer's dry-run `move_file` lacks the reserved set and
violates pairwise distinctness (see the counterexample). -/
theorem C3_amended_plan_renames_invariant (entries : List FileEntry) :
    ((planResolutions ((entries.map FileEntry.name).toFinset) entries ∅).map
        Prod.snd).Nodup ∧
      ∀ p ∈ planResolutions ((entries.map FileEntry.name).toFinset) entries ∅,
        p.2 ∈ (entries.map FileEntry.name).toFinset → p.2 = p.1 :=
  ⟨planResolutions_targets_nodup _ entries ∅,
   fun p hp => planResolutions_no_foreign_collision _ entries ∅ p hp⟩

/-- **C3, witness** for the amended theorem on a concrete batch: two
files that normalize to the same base get distinct targets, and the
canonically named file keeps its own name. -/
theorem C3_witness :
    ((planResolutions
        (([⟨"video1.mov".data, 2022, 5⟩, ⟨"video2.mov".data, 2022, 5⟩].map
          FileEntry.name).toFinset)
        [⟨"video1.mov".data, 2022, 5⟩, ⟨"video2.mov".data, 2022, 5⟩] ∅).map
      Prod.snd).Nodup ∧
    Prod.snd ("2022-05-video.mov".data, "2022-05-video.mov".data) =
      Prod.fst ("2022-05-video.mov".data, "2022-05-video.mov".data) := by
  constructor
  · exact (C3_amended_plan_renames_invariant
      [⟨"video1.mov".data, 2022, 5⟩, ⟨"video2.mov".data, 2022, 5⟩]).1
  · exact (C3_amended_plan_renames_invariant
      [⟨"2022-05-video.mov".data, 2022, 5⟩]).2
      ("2022-05-video.mov".data, "2022-05-video.mov".data) (by decide) (by decide)

/-- **C4, counterexample**: `organize_files.py`'s `main` catches the
invalid-root error, logs it and returns `None`: the process exit status
is 0 even when the supplied directory does not exist — the claim's
non-zero exit does not hold for this entry point. -/
theorem C4_counterexample :
    organize_files_main false false ["a.txt".data] ∅ = (0, true, []) := rfl

/-- **C4, amended**: on an invalid root both entry points report the
error and abort before touching any file, but only `rename_media.py`
exits non-zero (status 2); `organize_files.py` logs the error yet always
exits 0.  On a valid root both proceed (exit 0, no error logged). -/
theorem C4_amended_exit_codes :
    (∀ entries, rename_media_main false entries = (2, [])) ∧
      (∀ entries, (rename_media_main true entries).1 = 0) ∧
      (∀ pathExists isDir files catFS, pathExists = false ∨ isDir = false →
        organize_files_main pathExists isDir files catFS = (0, true, [])) ∧
      (∀ files catFS, organize_files_main true true files catFS =
        (0, false, organize_files files catFS)) := by
  refine ⟨fun entries => rfl, fun entries => rfl, ?_, fun files catFS => rfl⟩
  intro pathExists isDir files catFS h
  rcases h with rfl | rfl
  · rfl
  · rw [organize_files_main]
    cases pathExists
    · rfl
    · rfl

/-- **C4, witness** for the amended theorem at concrete inputs. -/
theorem C4_witness :
    rename_media_main false [⟨"a.txt".data, 2022, 5⟩] = (2, []) ∧
      organize_files_main true false ["a.txt".data] ∅ = (0, true, []) :=
  ⟨(C4_amended_exit_codes).1 [⟨"a.txt".data, 2022, 5⟩],
   (C4_amended_exit_codes).2.2.1 true false ["a.txt".data] ∅ (Or.inr rfl)⟩

/-- **C5** (confirmed): a file whose name already equals its canonical
target resolves to its own name — its own on-disk presence never forces a
numeric suffix.  For `_resolve_target`: if the built target name equals
the file's name (and the name was not reserved by an earlier file of the
batch), the resolver returns the name itself, whatever exists on disk.
For `move_file` of `apply_structure.py`: a file already at its sanitized
destination name keeps it (`destination != file_path` fails on the file
itself). -/
theorem C5_canonical_noop (f : Name) (y m : Nat) (E R : Finset Name)
    (hcanon : buildTargetName f y m = f) (hres : f ∉ R) :
    resolveTarget f y m E R = f ∧
      ∀ (fname : Name) (E' : Finset Name),
        sanitize_stem (pyStem fname) ++ (pySuffix fname).map Char.toLower = fname →
        move_file fname (some fname) E' = fname := by
  constructor
  · obtain ⟨k₀, _, hbl, hfr, heq⟩ := resolveTarget_spec f y m E R
    have hk0 : k₀ = 0 := by
      by_contra hne
      have h0 := hbl 0 (by omega)
      rw [show candRM f y m 0 = buildTargetName f y m from rfl, hcanon,
        blockedRM, Bool.or_eq_true, Bool.and_eq_true] at h0
      rcases h0 with ⟨_, hne'⟩ | hR
      · rw [decide_eq_true_eq] at hne'
        exact hne' rfl
      · rw [decide_eq_true_eq] at hR
        exact hres hR
    rw [heq, hk0, show candRM f y m 0 = buildTargetName f y m from rfl, hcanon]
  · intro fname E' hsan
    rw [move_file]
    simp only [hsan]
    refine collisionLoop_base_free ?_ _ (by rw [fuelBound]; omega)
    rw [blockedAS, Bool.and_eq_false_iff]
    right
    simp

/-- **C5, witness**: a canonically named media file and a canonically
named organizer file both keep their own names. -/
theorem C5_witness :
    resolveTarget "2022-05-video.mov".data 2022 5 {"2022-05-video.mov".data} ∅ =
        "2022-05-video.mov".data ∧
      move_file "my_report.pdf".data (some "my_report.pdf".data)
          {"my_report.pdf".data} = "my_report.pdf".data := by
  constructor
  · exact (C5_canonical_noop "2022-05-video.mov".data 2022 5
      {"2022-05-video.mov".data} ∅ (by decide) (by decide)).1
  · exact (C5_canonical_noop "2022-05-video.mov".data 2022 5
      {"2022-05-video.mov".data} ∅ (by decide) (by decide)).2
      "my_report.pdf".data {"my_report.pdf".data} (by decide)

/-- **C6** (confirmed): round-trip — resolve a file, move it to the
resolved target (the directory loses the old name and gains the target),
resolve the moved file again in the same directory with the same
modification time: the second resolution returns exactly the same
target, including targets that carry a numeric collision suffix (the
candidates blocking the first resolution still block the second, and the
target itself is exempted as the file's own name). -/
theorem C6_resolve_roundtrip (n : Name) (y m : Nat) (E : Finset Name) (hn : n ∈ E) :
    resolveTarget (resolveTarget n y m E ∅) y m
        (insert (resolveTarget n y m E ∅) (E.erase n)) ∅ =
      resolveTarget n y m E ∅ := by
  obtain ⟨k₀, hle, hbl, hfr, heq⟩ := resolveTarget_spec n y m E ∅
  rw [heq]
  set t := candRM n y m k₀ with ht
  have hfree : t ∈ E → t = n := by
    rw [blockedRM, Bool.or_eq_false_iff, Bool.and_eq_false_iff] at hfr
    intro hmem
    rcases hfr.1 with h | h
    · simp [hmem] at h
    · simpa using h
  have hcard : (insert t (E.erase n)).card = E.card := by
    by_cases htE : t ∈ E
    · rw [hfree htE, Finset.insert_erase hn]
    · have htnot : t ∉ E.erase n := fun hmem => htE (Finset.mem_of_mem_erase hmem)
      rw [Finset.card_insert_of_not_mem htnot, Finset.card_erase_of_mem hn]
      have : 0 < E.card := Finset.card_pos.mpr ⟨n, hn⟩
      omega
  simp only [resolveTarget]
  have hcands : ∀ j, candL (buildTargetName t y m)
      (nextRM (buildTargetName t y m) t) j = candRM n y m j := by
    intro j
    rw [show candL (buildTargetName t y m) (nextRM (buildTargetName t y m) t) j
        = candRM t y m j from rfl, ht]
    exact candRM_candRM n y m k₀ j
  have hbl2 : ∀ i, 0 ≤ i → i < k₀ →
      blockedRM t (insert t (E.erase n)) ∅
        (candL (buildTargetName t y m) (nextRM (buildTargetName t y m) t) i) = true := by
    intro i _ hik
    rw [hcands i]
    have hbi := hbl i hik
    rw [blockedRM, Bool.or_eq_true, Bool.and_eq_true, decide_eq_true_eq,
      decide_eq_true_eq, decide_eq_true_eq] at hbi
    rcases hbi with ⟨hiE, hin⟩ | hiR
    · have hit : candRM n y m i ≠ t := by
        rw [ht]
        intro hcc
        have := candRM_injective n y m i k₀ hcc
        omega
      rw [blockedRM, Bool.or_eq_true, Bool.and_eq_true]
      left
      constructor
      · rw [decide_eq_true_eq]
        exact Finset.mem_insert_of_mem (Finset.mem_erase.mpr ⟨hin, hiE⟩)
      · rw [decide_eq_true_eq]
        exact hit
    · simp at hiR
  have hfr2 : blockedRM t (insert t (E.erase n)) ∅
      (candL (buildTargetName t y m) (nextRM (buildTargetName t y m) t) k₀) = false := by
    rw [hcands k₀, ← ht, blockedRM, Bool.or_eq_false_iff, Bool.and_eq_false_iff]
    constructor
    · right
      simp
    · simp
  have hreach := @collisionLoop_reaches
    (blockedRM t (insert t (E.erase n)) ∅)
    (nextRM (buildTargetName t y m) t)
    (buildTargetName t y m)
    (fuelBound (insert t (E.erase n)) ∅) 0 k₀ (Nat.zero_le _)
    (by
      rw [fuelBound, hcard]
      simp only [Finset.card_empty] at hle ⊢
      omega)
    hbl2 hfr2
  rw [hcands k₀, ← ht] at hreach
  exact hreach

/-- **C6, witness**: the round-trip at a concrete file and directory. -/
theorem C6_witness :
    resolveTarget (resolveTarget "IMG_1.jpg".data 2024 7 {"IMG_1.jpg".data} ∅) 2024 7
        (insert (resolveTarget "IMG_1.jpg".data 2024 7 {"IMG_1.jpg".data} ∅)
          (({"IMG_1.jpg".data} : Finset Name).erase "IMG_1.jpg".data)) ∅ =
      resolveTarget "IMG_1.jpg".data 2024 7 {"IMG_1.jpg".data} ∅ :=
  C6_resolve_roundtrip "IMG_1.jpg".data 2024 7 {"IMG_1.jpg".data} (by decide)

/-- **C7** (confirmed): termination and correctness of the collision
loops.  `_resolve_target`: the returned name is never reserved and never
the name of an existing file other than the source, and the fuel bound
derived from the finite directory and reserved sets is stable — any
surplus fuel yields the same result, i.e. the `while` loop exits by its
condition within finitely many steps.  `ensure_unique_path`
(`photo_migration.py`): the returned name never collides with an
existing entry. -/
theorem C7_loop_terminates_free (f : Name) (y m : Nat) (E R : Finset Name) :
    (resolveTarget f y m E R ∉ R ∧
        (resolveTarget f y m E R ∈ E → resolveTarget f y m E R = f)) ∧
      (∀ (dest : Name) (E' : Finset Name), ensure_unique_path dest E' ∉ E') ∧
      (∀ extra, collisionLoop (blockedRM f E R) (nextRM (buildTargetName f y m) f)
          (fuelBound E R + extra) 1 (buildTargetName f y m) =
        resolveTarget f y m E R) := by
  refine ⟨resolveTarget_free f y m E R, fun dest E' => ensure_unique_path_free dest E', ?_⟩
  intro extra
  obtain ⟨k₀, hle, hbl, hfr, heq⟩ := resolveTarget_spec f y m E R
  rw [heq]
  have hreach := @collisionLoop_reaches
    (blockedRM f E R) (nextRM (buildTargetName f y m) f)
    (buildTargetName f y m)
    (fuelBound E R + extra) 0 k₀ (Nat.zero_le _)
    (by rw [fuelBound]; omega)
    (fun i _ hik => hbl i hik) hfr
  exact hreach

/-- **C7, witness**: the loop facts at a concrete blocked directory. -/
theorem C7_witness :
    resolveTarget "video1.mov".data 2022 5 {"2022-05-video.mov".data}
          {"2022-05-video-1.mov".data} ∉
        ({"2022-05-video-1.mov".data} : Finset Name) ∧
      ensure_unique_path "shared.png".data {"shared.png".data} ∉
        ({"shared.png".data} : Finset Name) := by
  constructor
  · exact (C7_loop_terminates_free "video1.mov".data 2022 5
      {"2022-05-video.mov".data} {"2022-05-video-1.mov".data}).1.1
  · exact (C7_loop_terminates_free "video1.mov".data 2022 5
      {"2022-05-video.mov".data} {"2022-05-video-1.mov".data}).2.1
      "shared.png".data {"shared.png".data}

/-- Only `'.'` is mapped to `'.'` by `Char.toLower` (uppercase letters
move into 97–122, far from 46). -/
theorem eq_dot_of_toLower {c : Char} (h : c.toLower = '.') : c = '.' := by
  rw [toLower_unfold] at h
  split at h
  · exfalso
    have hv := congrArg Char.toNat h
    rw [char_toNat_ofNat (by omega)] at hv
    simp only [show ('.').toNat = 46 from rfl] at hv
    omega
  · exact h

/-- **C8** (confirmed): the organizer's category policy buckets every
file by its lowercased extension: for every file whose suffix is
`'.' :: t`, the bucket is exactly the lowercased extension `t` (nonempty,
so the catch-all branch is never taken for extension-bearing files);
`report.TXT` lands in bucket `txt` (not the catch-all); and every file
without an extension lands in the catch-all bucket `no_extension`. -/
theorem C8_category_policy :
    (∀ (name t : Name), pySuffix name = '.' :: t →
        determine_category name = t.map Char.toLower ∧ t.map Char.toLower ≠ []) ∧
      determine_category "report.TXT".data = "txt".data ∧
      "txt".data ≠ "no_extension".data ∧
      ∀ name : Name, pySuffix name = [] →
        determine_category name = "no_extension".data := by
  refine ⟨?_, by decide, by decide, ?_⟩
  · intro name t h
    rcases pySuffix_shape name with he | ⟨t', he, htn, htd⟩
    · rw [he] at h
      cases h
    · rw [he] at h
      rw [List.cons.injEq] at h
      obtain ⟨_, heq⟩ := h
      rw [heq] at htn htd he
      have hmapne : t.map Char.toLower ≠ [] := by
        intro h0
        rw [List.map_eq_nil_iff] at h0
        exact htn h0
      have hstrip : lstripP (fun c => c = '.')
          (('.' :: t).map Char.toLower) = t.map Char.toLower := by
        rw [List.map_cons, show Char.toLower '.' = '.' from rfl, lstripP,
          List.dropWhile_cons_of_pos (by simp)]
        refine dropWhile_eq_self_of_head ?_
        intro c r hcr
        rw [decide_eq_false_iff_not]
        intro hcd
        rcases List.exists_cons_of_ne_nil htn with ⟨c₀, r₀, rfl⟩
        rw [List.map_cons, List.cons.injEq] at hcr
        exact htd c₀ (List.mem_cons_self _ _) (eq_dot_of_toLower (by rw [hcr.1, hcd]))
      rw [determine_category, he, hstrip, if_pos hmapne]
      exact ⟨rfl, hmapne⟩
  · intro name h
    rw [determine_category, h]
    simp [lstripP]

/-- **C8, witness**: the universal clauses at concrete files —
`report.TXT`'s suffix buckets it into the lowercased `txt`, and the
extensionless `README` goes to the catch-all bucket. -/
theorem C8_witness :
    (determine_category "report.TXT".data = ("TXT".data).map Char.toLower ∧
        ("TXT".data).map Char.toLower ≠ []) ∧
      pySuffix "README".data = [] ∧
      determine_category "README".data = "no_extension".data :=
  ⟨C8_category_policy.1 "report.TXT".data "TXT".data (by decide),
   by decide, C8_category_policy.2.2.2 "README".data (by decide)⟩

/-- **C9** (confirmed): the description normalization is exactly the
spec's pipeline — strip digits, replace each run of non-alphanumeric
characters with a single hyphen, trim leading/trailing hyphens,
lowercase, fall back to the literal `file` when empty (the source's
one-pass run collapsing equals the spec's formulation on every input) —
and the stem `1234-__--!!` normalizes to `file`. -/
theorem C9_normalization_refines_spec :
    (∀ s : Name, normalizeDescription s = normalizeDescriptionSpec s) ∧
      normalizeDescription "1234-__--!!".data = "file".data := by
  constructor
  · intro s
    simp only [normalizeDescription, normalizeDescriptionSpec,
      subRuns_eq_replaceRunsSpec]
  · decide

/-- **C10** (confirmed): `sanitize_stem` always returns a nonempty name
of at most 80 characters drawn from lowercase letters, digits, `'.'`,
`'_'` and `'-'`: the fallback `unnamed` replaces an empty sanitized stem
before truncation, and a nonempty sanitized stem never begins with `'.'`
or `'_'` (both ends are stripped first), so truncating to 80 and
stripping trailing `'.'`/`'_'` can never empty it. -/
theorem C10_sanitize_stem_invariant (stem : Name) :
    sanitize_stem stem ≠ [] ∧ (sanitize_stem stem).length ≤ 80 ∧
      ∀ c ∈ sanitize_stem stem,
        isLowerAlpha c = true ∨ isDigitChar c = true ∨ c = '.' ∨ c = '_' ∨ c = '-' :=
  sanitize_stem_invariant stem

/-- **C10, witness**: the invariant at a concrete input, including the
character class of a concrete output character. -/
theorem C10_witness :
    sanitize_stem "My Report FINAL".data ≠ [] ∧
      (sanitize_stem "My Report FINAL".data).length ≤ 80 ∧
      (isLowerAlpha 'm' = true ∨ isDigitChar 'm' = true ∨ 'm' = '.' ∨
        'm' = '_' ∨ 'm' = '-') :=
  ⟨(C10_sanitize_stem_invariant "My Report FINAL".data).1,
   (C10_sanitize_stem_invariant "My Report FINAL".data).2.1,
   (C10_sanitize_stem_invariant "My Report FINAL".data).2.2 'm' (by decide)⟩
